import Mathlib

/-!
# Sherpa VS Code extension — workspace-to-project resolution core

Shallow embedding of the matching core of the `sherpa-vscode` extension:

* `matchProject` and `extractRepoName` from `src/workspace.ts`,
* `detectWorkspace` from `src/workspace.ts` (the 3-second event/timer race is
  abstracted: the repository list the function observes after its optional
  bounded wait is an input of the environment),
* the `autoDetectAndFilter` resolution pipeline from `src/extension.ts`,
  with the three asynchronous collaborators (`detectWorkspace`,
  `fetchProjects`, `fetchAIProjectMatch`) represented by their outcomes
  (`Except`), and the `try`/`catch` swallowing represented by the function
  totally returning the state reached when the first failure is caught.

Strings are modelled as `List Char`.  JavaScript `String.prototype.toLowerCase`
is modelled by ASCII `Char.toLower` (every name occurring in the claims is
ASCII).  JavaScript truthiness of a string is `s ≠ []` (and of an optional
string, `some s` with `s ≠ []`).
-/

/-- Strings of the embedded program, as lists of characters. -/
abbrev Str := List Char

/-- Model of `Project` from `src/tickets.ts`: `{ id: number | string; name: string }`. -/
structure Project where
  id : Nat ⊕ Str
  name : Str
deriving DecidableEq, Repr

/-- Case folding of a whole string, modelling `s.toLowerCase()` (ASCII). -/
def lowerStr (s : Str) : Str := s.map Char.toLower

/-- Embedding of `matchProject` from `src/workspace.ts` (lines 85–116): three-tier matching.
`if (!repoName || projects.length === 0) return undefined`, then tier 1
(exact case-insensitive equality), tier 2 (`pLower.startsWith(lower) ||
lower.startsWith(pLower)`), tier 3 (`pLower.includes(lower) ||
lower.includes(pLower)`), each via `Array.prototype.find` (first hit in list
order). -/
def matchProject (repoName : Str) (projects : List Project) : Option Project :=
  if repoName = [] ∨ projects = [] then
    none
  else
    let lower := lowerStr repoName
    match projects.find? (fun p => lowerStr p.name = lower) with
    | some exact => some exact
    | none =>
      match projects.find? (fun p =>
          let pLower := lowerStr p.name
          lower.isPrefixOf pLower || pLower.isPrefixOf lower) with
      | some pre => some pre
      | none =>
        projects.find? (fun p =>
          let pLower := lowerStr p.name
          decide (lower <:+: pLower) || decide (pLower <:+: lower))

/-- The separator character class `[:\/]` of the SSH regex in
`extractRepoName`; `notSep c` holds when `c` matches `[^/:]`. -/
def notSep (c : Char) : Bool := !(c = '/' || c = ':')

/-- Model of `url.replace(/\.git$/, "")`: strip one trailing `".git"`. -/
def stripDotGit (s : Str) : Str :=
  if List.isSuffixOf ".git".data s then s.take (s.length - 4) else s

/-- JavaScript `s.split("/")`: split on every `'/'`, keeping empty
segments; the result is always non-empty. -/
def splitSlash : Str → List Str
  | [] => [[]]
  | c :: rest =>
    if c = '/' then [] :: splitSlash rest
    else
      match splitSlash rest with
      | [] => [[c]]
      | s :: ss => (c :: s) :: ss

/-- The anchored regex `cleaned.match(/[:\/]([^/:]+\/[^/:]+)$/)` of
`extractRepoName`.  Because the pattern is anchored at the end and its
character classes exclude the separators, a match exists exactly when the
maximal separator-free suffix `B` of the string is non-empty, is preceded by a
literal `'/'`, before which the maximal separator-free run `A` is non-empty,
and before `A` at least one more character (necessarily in `[:\/]`) remains.
The captured group is `A ++ "/" ++ B`; this function returns `some (A, B)`. -/
def sshGroup (s : Str) : Option (Str × Str) :=
  match s.reverse.dropWhile notSep with
  | c :: r2 =>
    if c = '/' then
      if (s.reverse.takeWhile notSep).isEmpty || (r2.takeWhile notSep).isEmpty
          || (r2.dropWhile notSep).isEmpty then none
      else some ((r2.takeWhile notSep).reverse, (s.reverse.takeWhile notSep).reverse)
    else none
  | [] => none

/-- Body of `extractRepoName` after the `".git"`-stripping step: try the SSH
regex and on success return `sshMatch[1].split("/").pop()!`, otherwise split
on `'/'` and return `parts[parts.length - 1] || cleaned`. -/
def extractFrom (cleaned : Str) : Str :=
  match sshGroup cleaned with
  | some (a, b) => (splitSlash (a ++ '/' :: b)).getLastD []
  | none =>
    if ((splitSlash cleaned).getLastD []).isEmpty then cleaned
    else (splitSlash cleaned).getLastD []

/-- Embedding of `extractRepoName` from `src/workspace.ts` (lines 66–77): strip a trailing
`".git"`, then try the SSH regex, falling back to the last `'/'`-segment. -/
def extractRepoName (url : Str) : Str :=
  extractFrom (stripDotGit url)

/-- Model of `WorkspaceInfo` from `src/workspace.ts`: all three fields optional
strings. -/
structure WorkspaceInfo where
  repoName : Option Str
  branch : Option Str
  folderName : Option Str
deriving DecidableEq, Repr

/-- A remote of the VS Code Git extension API (`GitRemote` in
`src/workspace.ts`). -/
structure GitRemoteM where
  name : Str
  fetchUrl : Option Str
  pushUrl : Option Str
deriving DecidableEq, Repr

/-- A repository of the VS Code Git extension API (`GitRepository` in
`src/workspace.ts`): root URI path, `state.HEAD?.name`, `state.remotes`. -/
structure GitRepoM where
  rootUriPath : Str
  headName : Option Str
  remotes : List GitRemoteM
deriving DecidableEq, Repr

/-- The Git extension collaborator as `detectWorkspace` observes it:
whether it is already active, whether `activate()` resolves (rather than
rejects), and the repository list visible once the bounded 3-second
event/timer wait has finished (the race itself is abstracted into this
post-wait list). -/
structure GitExtM where
  isActive : Bool
  activateOk : Bool
  repositories : List GitRepoM
deriving DecidableEq, Repr

/-- Ambient editor state read by `detectWorkspace`: the names of the open
workspace folders and the optional Git extension. -/
structure DetectEnv where
  workspaceFolderNames : List Str
  gitExt : Option GitExtM
deriving DecidableEq, Repr

/-- Embedding of `detectWorkspace` from `src/workspace.ts` (lines 15–60).
`folderName = workspace.workspaceFolders?.[0]?.name`; fall back to
`{ repoName: folderName, branch: undefined }` when the Git extension is
absent, when it is inactive and `activate()` rejects, or when no repository
is available after the bounded wait; otherwise
`repoName = repo.rootUri.path.split("/").pop() || folderName` and
`branch = repo.state.HEAD?.name`. -/
def detectWorkspace (env : DetectEnv) : WorkspaceInfo :=
  let folderName := env.workspaceFolderNames.head?
  match env.gitExt with
  | none => ⟨folderName, none, folderName⟩
  | some g =>
    if !g.isActive && !g.activateOk then ⟨folderName, none, folderName⟩
    else
      match g.repositories.head? with
      | none => ⟨folderName, none, folderName⟩
      | some repo =>
        let branch := repo.headName
        let popped := (splitSlash repo.rootUriPath).getLastD []
        let repoName := if popped.isEmpty then folderName else some popped
        ⟨repoName, branch, folderName⟩

/-- The mutable state the resolution pipeline touches: the tree provider's
project filter (`TicketProvider._projectFilter`) and the module-level
`cachedProjects` of `src/extension.ts`. -/
structure PipelineState where
  projectFilter : Option Str
  cachedProjects : List Project
deriving DecidableEq, Repr

/-- Outcomes of the three awaited collaborators during one run of
`autoDetectAndFilter`: `detectWorkspace()`, `fetchProjects()` and
`fetchAIProjectMatch(...)` each either reject (`Except.error`) or resolve.
A resolved AI call yields an optional string (`none` models
`null`/`undefined`). -/
structure PipelineRun where
  detectResult : Except Unit WorkspaceInfo
  fetchResult : Except Unit (List Project)
  aiResult : Except Unit (Option Str)
deriving Repr

/-- Result of one pipeline run: the state after the run and whether the AI
collaborator was invoked (the `await fetchAIProjectMatch(...)` expression was
reached). -/
structure PipelineOutcome where
  state : PipelineState
  aiInvoked : Bool
deriving DecidableEq, Repr

/-- Embedding of `autoDetectAndFilter` from `src/extension.ts` (lines 26–57).  The whole
body is wrapped in `try`/`catch` whose handler only logs, so a rejection of
any awaited collaborator leaves the function with whatever mutations had
already happened: `cachedProjects = await fetchProjects()` persists even when
a later step rejects.  `if (ws.repoName)` is JS truthiness (undefined and ""
are falsy), `matchProject` is tiers 1–3, and on a truthy `aiMatch` the code
runs `myProvider.setProjectFilter(aiMatch)` with the raw returned string. -/
def autoDetectAndFilter (run : PipelineRun) (st : PipelineState) :
    PipelineOutcome :=
  match run.detectResult with
  | .error _ => ⟨st, false⟩
  | .ok ws =>
    match run.fetchResult with
    | .error _ => ⟨st, false⟩
    | .ok projects =>
      let st1 : PipelineState := ⟨st.projectFilter, projects⟩
      match ws.repoName with
      | none => ⟨st1, false⟩
      | some rn =>
        if rn.isEmpty then ⟨st1, false⟩
        else
          match matchProject rn projects with
          | some m => ⟨⟨some m.name, projects⟩, false⟩
          | none =>
            match run.aiResult with
            | .error _ => ⟨st1, true⟩
            | .ok none => ⟨st1, true⟩
            | .ok (some s) =>
              if s.isEmpty then ⟨st1, true⟩
              else ⟨⟨some s, projects⟩, true⟩

/-! ## Theorems about the matcher -/

/-- Claim C5: `matchProject` with an empty repository name, or with an empty
project list, returns `undefined` (`none`); being a total Lean function, it
raises no error. -/
theorem claim_C5_match_empty_inputs :
    (∀ ps : List Project, matchProject [] ps = none) ∧
      (∀ rn : Str, matchProject rn [] = none) := by
  constructor
  · intro ps; simp [matchProject]
  · intro rn; simp [matchProject]

/-- Claim C2: For every repository name and project list, `matchProject`
terminates (it is a total Lean function) and returns `none` or a member of
the input list — never a fabricated project. -/
theorem claim_C2_match_mem (rn : Str) (ps : List Project) :
    matchProject rn ps = none ∨ ∃ p ∈ ps, matchProject rn ps = some p := by
  unfold matchProject
  split
  · exact Or.inl rfl
  · cases h1 : ps.find? (fun p => lowerStr p.name = lowerStr rn) with
    | some q => exact Or.inr ⟨q, List.mem_of_find?_eq_some h1, by simp [h1]⟩
    | none =>
      cases h2 : ps.find? (fun p =>
          (lowerStr rn).isPrefixOf (lowerStr p.name) ||
            (lowerStr p.name).isPrefixOf (lowerStr rn)) with
      | some q => exact Or.inr ⟨q, List.mem_of_find?_eq_some h2, by simp [h1, h2]⟩
      | none =>
        cases h3 : ps.find? (fun p =>
            decide (lowerStr rn <:+: lowerStr p.name) ||
              decide (lowerStr p.name <:+: lowerStr rn)) with
        | some q => exact Or.inr ⟨q, List.mem_of_find?_eq_some h3, by simp [h1, h2, h3]⟩
        | none => exact Or.inl (by simp [h1, h2, h3])

/-- Claim C3: The exact tier strictly outranks the lower tiers: whenever the
scan of the project list for a case-insensitively equal name succeeds
(yielding its first hit `p`), `matchProject` returns exactly that `p`,
regardless of earlier prefix- or substring-only matches; in particular
`matchProject "Foo" [{name:"Foobar"}, {name:"foo"}] = {name:"foo"}` and
`matchProject "ACME" [{name:"acme"}]` matches. -/
theorem claim_C3_exact_tier_wins :
    (∀ (rn : Str) (ps : List Project) (p : Project), rn ≠ [] →
        ps.find? (fun q => lowerStr q.name = lowerStr rn) = some p →
        matchProject rn ps = some p) ∧
      matchProject "Foo".data [⟨.inl 1, "Foobar".data⟩, ⟨.inl 2, "foo".data⟩]
          = some ⟨.inl 2, "foo".data⟩ ∧
      (matchProject "ACME".data [⟨.inl 1, "acme".data⟩]).isSome = true := by
  refine ⟨?_, by decide, by decide⟩
  intro rn ps p hrn hfind
  have hps : ps ≠ [] := by
    rintro rfl; simp at hfind
  unfold matchProject
  rw [if_neg (by simp [hrn, hps])]
  simp [hfind]

/-- Claim C3, witness: Concrete instance of the universally quantified part
of the exact-tier theorem at the spec's own example. -/
theorem claim_C3_witness :
    matchProject "Foo".data [⟨.inl 1, "Foobar".data⟩, ⟨.inl 2, "foo".data⟩]
      = some ⟨.inl 2, "foo".data⟩ :=
  claim_C3_exact_tier_wins.1 "Foo".data
    [⟨.inl 1, "Foobar".data⟩, ⟨.inl 2, "foo".data⟩]
    ⟨.inl 2, "foo".data⟩ (by decide) (by decide)

/-- Claim C4: The prefix tier strictly outranks the substring tier, and within
a tier the first matching project in list order wins: when the exact-tier
scan fails and the prefix-tier scan (`pLower.startsWith(lower) ||
lower.startsWith(pLower)`, first hit in list order) yields `p`,
`matchProject` returns exactly that `p` and the substring tier is never
consulted; likewise, when both higher scans fail, the substring-tier scan's
first hit in list order is returned; in particular
`matchProject "backend" [{name:"backend-service"}, {name:"my-backend-tools"}]
= {name:"backend-service"}`. -/
theorem claim_C4_prefix_tier_wins :
    (∀ (rn : Str) (ps : List Project) (p : Project), rn ≠ [] →
        ps.find? (fun q => lowerStr q.name = lowerStr rn) = none →
        ps.find? (fun q =>
          (lowerStr rn).isPrefixOf (lowerStr q.name) ||
            (lowerStr q.name).isPrefixOf (lowerStr rn)) = some p →
        matchProject rn ps = some p) ∧
      (∀ (rn : Str) (ps : List Project), rn ≠ [] →
        ps.find? (fun q => lowerStr q.name = lowerStr rn) = none →
        ps.find? (fun q =>
          (lowerStr rn).isPrefixOf (lowerStr q.name) ||
            (lowerStr q.name).isPrefixOf (lowerStr rn)) = none →
        matchProject rn ps
          = ps.find? (fun q =>
              decide (lowerStr rn <:+: lowerStr q.name) ||
                decide (lowerStr q.name <:+: lowerStr rn))) ∧
      matchProject "backend".data
          [⟨.inl 1, "backend-service".data⟩, ⟨.inl 2, "my-backend-tools".data⟩]
          = some ⟨.inl 1, "backend-service".data⟩ := by
  refine ⟨?_, ?_, by decide⟩
  · intro rn ps p hrn h1 h2
    have hps : ps ≠ [] := by
      rintro rfl; simp at h2
    unfold matchProject
    rw [if_neg (by simp [hrn, hps])]
    simp [h1, h2]
  · intro rn ps hrn h1 h2
    cases hps : ps with
    | nil => simp [matchProject]
    | cons q qs =>
      rw [← hps]
      have hps' : ps ≠ [] := by rw [hps]; simp
      unfold matchProject
      rw [if_neg (by simp [hrn, hps'])]
      simp [h1, h2]

/-- Claim C4, witness: Concrete instance of the universally quantified part
of the prefix-tier theorem at the spec's own example. -/
theorem claim_C4_witness :
    matchProject "backend".data
        [⟨.inl 1, "backend-service".data⟩, ⟨.inl 2, "my-backend-tools".data⟩]
      = some ⟨.inl 1, "backend-service".data⟩ :=
  claim_C4_prefix_tier_wins.1 "backend".data
    [⟨.inl 1, "backend-service".data⟩, ⟨.inl 2, "my-backend-tools".data⟩]
    ⟨.inl 1, "backend-service".data⟩ (by decide) (by decide) (by decide)

/-- Claim C6: `extractRepoName` maps the common remote-URL forms to the bare
repository name: the SSH form and the HTTPS form, with and without a
trailing `".git"`. -/
theorem claim_C6_extract_common_forms :
    extractRepoName "git@github.com:org/repo.git".data = "repo".data ∧
      extractRepoName "https://github.com/org/repo".data = "repo".data ∧
      extractRepoName "https://github.com/org/repo.git".data = "repo".data := by
  refine ⟨by decide, by decide, by decide⟩

/-! ## Theorems about the resolution pipeline and workspace detection -/

/-- Claim C7: When `fetchProjects` rejects, the pipeline run completes (the
embedding is a total function: the `try`/`catch` lets no exception escape)
and the active project filter holds exactly its pre-call value; in fact the
whole state is untouched. -/
theorem claim_C7_fetch_failure_preserves_filter
    (d : Except Unit WorkspaceInfo) (a : Except Unit (Option Str))
    (st : PipelineState) :
    (autoDetectAndFilter ⟨d, .error (), a⟩ st).state.projectFilter
      = st.projectFilter := by
  cases d <;> rfl

/-- Claim C8: When the Git extension is absent, or present but inactive with a
failing `activate()`, `detectWorkspace` returns `repoName` equal to the first
workspace folder's name and `branch = undefined`, without error (total
function). -/
theorem claim_C8_detect_fallback :
    (∀ folders : List Str,
        detectWorkspace ⟨folders, none⟩
          = ⟨folders.head?, none, folders.head?⟩) ∧
      (∀ (folders : List Str) (repos : List GitRepoM),
        detectWorkspace ⟨folders, some ⟨false, false, repos⟩⟩
          = ⟨folders.head?, none, folders.head?⟩) := by
  exact ⟨fun _ => rfl, fun _ _ => rfl⟩

/-- Claim C1, counterexample: The claim is false on the code: with repository
name `"zzz"`, fetched project list `[{name:"alpha"}]` (so the string tiers
find nothing) and the AI collaborator returning `"phantom"` — a name not in
the project list — `autoDetectAndFilter` sets the active filter to the
phantom name `"phantom"` instead of leaving it unset. -/
theorem claim_C1_counterexample :
    (autoDetectAndFilter
        ⟨.ok ⟨some "zzz".data, none, some "zzz".data⟩,
          .ok [⟨.inl 1, "alpha".data⟩], .ok (some "phantom".data)⟩
        ⟨none, []⟩).state.projectFilter = some "phantom".data ∧
      "phantom".data ∉ ([⟨.inl 1, "alpha".data⟩] : List Project).map Project.name := by
  refine ⟨by decide, by decide⟩

/-- Claim C1, amended: When the string tiers find no match and the AI
collaborator resolves with a truthy (non-empty) name, `autoDetectAndFilter`
sets the active filter to that raw returned name, performing no membership
check against the fetched project list; the filter keeps its prior value
only when the AI call rejects or returns an absent/empty name. -/
theorem claim_C1_amended (ws : WorkspaceInfo) (projects : List Project)
    (rn s : Str) (st : PipelineState)
    (hws : ws.repoName = some rn) (hrn : rn ≠ [])
    (hm : matchProject rn projects = none) (hs : s ≠ []) :
    (autoDetectAndFilter ⟨.ok ws, .ok projects, .ok (some s)⟩ st).state.projectFilter
      = some s := by
  simp [autoDetectAndFilter, hws, hrn, hm, hs]

/-- Claim C1, witness: Concrete instance of the amended claim. -/
theorem claim_C1_witness :
    (autoDetectAndFilter
        ⟨.ok ⟨some "zzz".data, none, none⟩,
          .ok [⟨.inl 1, "alpha".data⟩], .ok (some "ghost".data)⟩
        ⟨none, []⟩).state.projectFilter = some "ghost".data :=
  claim_C1_amended ⟨some "zzz".data, none, none⟩ [⟨.inl 1, "alpha".data⟩]
    "zzz".data "ghost".data ⟨none, []⟩ rfl (by decide) (by decide) (by decide)

/-- Claim C9, counterexample: The claim is false on the code: with a truthy
repository name and an *empty* fetched project list, the string tiers find
nothing and `autoDetectAndFilter` still reaches the
`await fetchAIProjectMatch(...)` call (the non-empty guard exists only in the
create-ticket panel's matching path, not here). -/
theorem claim_C9_counterexample :
    (autoDetectAndFilter
        ⟨.ok ⟨some "x".data, none, none⟩, .ok ([] : List Project), .ok none⟩
        ⟨none, []⟩).aiInvoked = true := by
  decide

/-- Claim C9, amended: The pipeline invokes the AI collaborator exactly when
workspace detection and the project fetch succeed, the repository name is
truthy, and the string tiers find no match — regardless of whether the
fetched project list is empty (with an empty list the AI is called with an
empty candidate list). -/
theorem claim_C9_amended (run : PipelineRun) (st : PipelineState) :
    (autoDetectAndFilter run st).aiInvoked = true ↔
      ∃ (ws : WorkspaceInfo) (projects : List Project) (rn : Str),
        run.detectResult = .ok ws ∧ run.fetchResult = .ok projects ∧
          ws.repoName = some rn ∧ rn ≠ [] ∧ matchProject rn projects = none := by
  obtain ⟨d, f, a⟩ := run
  cases d with
  | error e => simp [autoDetectAndFilter]
  | ok ws =>
    cases f with
    | error e => simp [autoDetectAndFilter]
    | ok projects =>
      cases hrn : ws.repoName with
      | none => simp [autoDetectAndFilter, hrn]
      | some rn =>
        by_cases hempty : rn = []
        · subst hempty
          simp [autoDetectAndFilter, hrn]
        · cases hm : matchProject rn projects with
          | some m => simp [autoDetectAndFilter, hrn, hempty, hm]
          | none =>
            cases a with
            | error e => simp [autoDetectAndFilter, hrn, hempty, hm]
            | ok ai =>
              cases ai with
              | none => simp [autoDetectAndFilter, hrn, hempty, hm]
              | some s =>
                by_cases hs : s = [] <;>
                  simp [autoDetectAndFilter, hrn, hempty, hm, hs]

/-- Claim C9, witness: Concrete instance of the amended claim: at a run whose
fetched project list is empty, the characterization yields the conditions
under which the AI call happened. -/
theorem claim_C9_witness :
    ∃ (ws : WorkspaceInfo) (projects : List Project) (rn : Str),
      (PipelineRun.mk (.ok ⟨some "x".data, none, none⟩) (.ok ([] : List Project))
          (.ok none)).detectResult = .ok ws ∧
        (PipelineRun.mk (.ok ⟨some "x".data, none, none⟩) (.ok ([] : List Project))
          (.ok none)).fetchResult = .ok projects ∧
        ws.repoName = some rn ∧ rn ≠ [] ∧ matchProject rn projects = none :=
  (claim_C9_amended
    (PipelineRun.mk (.ok ⟨some "x".data, none, none⟩) (.ok ([] : List Project))
      (.ok none)) ⟨none, []⟩).mp (by decide)

/-! ## Structural lemmas for `extractRepoName` -/

/-- The function `splitSlash` never returns the empty list of segments. -/
theorem splitSlash_ne_nil (s : Str) : splitSlash s ≠ [] := by
  induction s with
  | nil => simp [splitSlash]
  | cons c rest ih =>
    unfold splitSlash
    split
    · simp
    · split
      · simp
      · simp

/-- Splitting a slash-free string yields that string as the only segment. -/
theorem splitSlash_noSlash {s : Str} (h : '/' ∉ s) : splitSlash s = [s] := by
  induction s with
  | nil => rfl
  | cons c rest ih =>
    have hc : c ≠ '/' := by rintro rfl; exact h (List.mem_cons_self _ _)
    have hrest : '/' ∉ rest := fun hm => h (List.mem_cons_of_mem _ hm)
    unfold splitSlash
    rw [if_neg hc, ih hrest]

/-- Splitting at an explicit `'/'` after a slash-free prefix peels the prefix
off as the first segment. -/
theorem splitSlash_append {a r : Str} (h : '/' ∉ a) :
    splitSlash (a ++ '/' :: r) = a :: splitSlash r := by
  induction a with
  | nil => simp [splitSlash]
  | cons c t ih =>
    have hc : c ≠ '/' := by rintro rfl; exact h (List.mem_cons_self _ _)
    have ht : '/' ∉ t := fun hm => h (List.mem_cons_of_mem _ hm)
    rw [List.cons_append]
    simp only [splitSlash, if_neg hc, ih ht]

/-- Every segment produced by `splitSlash` is slash-free. -/
theorem mem_splitSlash_noSlash {s x : Str} (hx : x ∈ splitSlash s) :
    '/' ∉ x := by
  induction s generalizing x with
  | nil =>
    simp [splitSlash] at hx
    subst hx; simp
  | cons c rest ih =>
    unfold splitSlash at hx
    by_cases hc : c = '/'
    · rw [if_pos hc] at hx
      rcases List.mem_cons.mp hx with rfl | hx'
      · simp
      · exact ih hx'
    · rw [if_neg hc] at hx
      cases hsp : splitSlash rest with
      | nil => exact absurd hsp (splitSlash_ne_nil rest)
      | cons s0 ss =>
        rw [hsp] at hx
        rcases List.mem_cons.mp hx with rfl | hx'
        · intro hmem
          rcases List.mem_cons.mp hmem with h1 | h2
          · exact hc h1.symm
          · exact ih (x := s0) (by rw [hsp]; exact List.mem_cons_self s0 ss) h2
        · exact ih (by rw [hsp]; exact List.mem_cons_of_mem _ hx')

/-- The default-valued last element of a non-empty list is a member. -/
theorem getLastD_mem {α : Type} {l : List α} (d : α) (h : l ≠ []) :
    l.getLastD d ∈ l := by
  induction l generalizing d with
  | nil => exact absurd rfl h
  | cons a as ih =>
    cases as with
    | nil => simp [List.getLastD]
    | cons b bs =>
      rw [List.getLastD_cons]
      exact List.mem_cons_of_mem _ (ih _ (by simp))

/-- The head surviving `dropWhile` fails the predicate. -/
theorem dropWhile_head_false {α : Type} {p : α → Bool} {l : List α} :
    ∀ {c : α} {t : List α}, l.dropWhile p = c :: t → p c = false := by
  induction l with
  | nil => intro c t h; simp [List.dropWhile] at h
  | cons a l ih =>
    intro c t h
    by_cases hp : p a
    · rw [List.dropWhile_cons_of_pos hp] at h
      exact ih h
    · rw [List.dropWhile_cons_of_neg hp] at h
      injection h with h1 h2
      subst h1
      simpa using hp

/-- The head surviving `dropWhile` is a member of the original list. -/
theorem dropWhile_head_mem {α : Type} {p : α → Bool} {l : List α} :
    ∀ {c : α} {t : List α}, l.dropWhile p = c :: t → c ∈ l := by
  induction l with
  | nil => intro c t h; simp [List.dropWhile] at h
  | cons a l ih =>
    intro c t h
    by_cases hp : p a
    · rw [List.dropWhile_cons_of_pos hp] at h
      exact List.mem_cons_of_mem _ (ih h)
    · rw [List.dropWhile_cons_of_neg hp] at h
      injection h with h1 h2
      subst h1
      exact List.mem_cons_self _ _

/-- The SSH regex cannot match a slash-free string (its mandatory literal
`'/'` before the final segment is missing). -/
theorem sshGroup_of_noSlash {s : Str} (h : '/' ∉ s) : sshGroup s = none := by
  unfold sshGroup
  cases hd : (s.reverse.dropWhile notSep) with
  | nil => simp [hd]
  | cons c r2 =>
    have hc : c ∈ s.reverse := dropWhile_head_mem hd
    have hne : ¬(c = '/') := by
      rintro rfl; exact h (List.mem_reverse.mp hc)
    simp [hd, hne]

/-- Inversion of a successful SSH-regex match: the function value is the
final segment `b`, which is slash-free and non-empty. -/
theorem extractFrom_ssh {s a b : Str} (h : sshGroup s = some (a, b)) :
    extractFrom s = b ∧ '/' ∉ b ∧ b ≠ [] := by
  have hss := h
  unfold sshGroup at h
  split at h
  · split at h
    · split at h
      · simp at h
      · rename_i hcond
        injection h with hpair
        injection hpair with ha hb
        have hbne : b ≠ [] := by
          rintro rfl
          have : s.reverse.takeWhile notSep = [] :=
            List.reverse_eq_nil_iff.mp hb
          exact hcond (by simp [this])
        have hnob : '/' ∉ b := by
          intro hmem
          rw [← hb] at hmem
          have := List.mem_takeWhile_imp (List.mem_reverse.mp hmem)
          simp [notSep] at this
        have hnoa : '/' ∉ a := by
          intro hmem
          rw [← ha] at hmem
          have := List.mem_takeWhile_imp (List.mem_reverse.mp hmem)
          simp [notSep] at this
        refine ⟨?_, hnob, hbne⟩
        unfold extractFrom
        rw [hss]
        show (splitSlash (a ++ '/' :: b)).getLastD [] = b
        rw [splitSlash_append hnoa, splitSlash_noSlash hnob]
        rfl
    · simp at h
  · simp at h

/-- A slash-free string is a fixed point of the body `extractFrom`:
the SSH regex fails and the string is its own single `'/'`-segment. -/
theorem extractFrom_noSlash_fix {o : Str} (h : '/' ∉ o) :
    extractFrom o = o := by
  unfold extractFrom
  rw [sshGroup_of_noSlash h, splitSlash_noSlash h]
  simp only [List.getLastD_cons, List.getLastD_nil]
  split <;> rfl

/-- Claim C10, counterexample: The claim is false on the code:
`extractRepoName "repo.git.git" = "repo.git"` (the regex strips only one
trailing `".git"`), and feeding that output back in strips the next
`".git"`, so the function is not idempotent. -/
theorem claim_C10_counterexample :
    extractRepoName (extractRepoName "repo.git.git".data)
      ≠ extractRepoName "repo.git.git".data := by
  decide

/-- Claim C10, amended: `extractRepoName` is idempotent on every input whose
output does not end in `".git"`: such outputs are returned unchanged when fed
back in.  (Outputs *can* end in `".git"` — e.g. for inputs ending in
`".git.git"` — and on those re-processing strips the suffix again.) -/
theorem claim_C10_amended (url : Str)
    (h : List.isSuffixOf ".git".data (extractRepoName url) = false) :
    extractRepoName (extractRepoName url) = extractRepoName url := by
  have hstrip : stripDotGit (extractRepoName url) = extractRepoName url := by
    unfold stripDotGit
    rw [if_neg (by simp [h])]
  show extractFrom (stripDotGit (extractRepoName url)) = extractRepoName url
  rw [hstrip]
  cases hssh : sshGroup (stripDotGit url) with
  | some ab =>
    obtain ⟨a, b⟩ := ab
    obtain ⟨hout, hnob, -⟩ := extractFrom_ssh hssh
    have hrep : extractRepoName url = b := hout
    rw [hrep]
    exact extractFrom_noSlash_fix hnob
  | none =>
    have hrep : extractRepoName url =
        (if ((splitSlash (stripDotGit url)).getLastD []).isEmpty
          then stripDotGit url
          else (splitSlash (stripDotGit url)).getLastD []) := by
      show extractFrom (stripDotGit url) = _
      unfold extractFrom
      rw [hssh]
    by_cases hlast : ((splitSlash (stripDotGit url)).getLastD []).isEmpty
    · have hrep2 : extractRepoName url = stripDotGit url := by
        rw [hrep, if_pos hlast]
      rw [hrep2]
      unfold extractFrom
      rw [hssh, if_pos hlast]
    · have hmem : (splitSlash (stripDotGit url)).getLastD []
          ∈ splitSlash (stripDotGit url) :=
        getLastD_mem [] (splitSlash_ne_nil _)
      have hnl : '/' ∉ (splitSlash (stripDotGit url)).getLastD [] :=
        mem_splitSlash_noSlash hmem
      have hrep2 : extractRepoName url = (splitSlash (stripDotGit url)).getLastD [] := by
        rw [hrep, if_neg hlast]
      rw [hrep2]
      exact extractFrom_noSlash_fix hnl

/-- Claim C10, witness: Concrete instance of the amended claim at the HTTPS
example URL. -/
theorem claim_C10_witness :
    List.isSuffixOf ".git".data (extractRepoName "https://github.com/org/repo".data)
        = false ∧
      extractRepoName (extractRepoName "https://github.com/org/repo".data)
        = extractRepoName "https://github.com/org/repo".data :=
  ⟨by decide, claim_C10_amended "https://github.com/org/repo".data (by decide)⟩
